import Mathlib

/-!
Verification of the chunked parallel processing pipeline of the `eai`
repository (package `ei_cli`): the `ParallelExecutor`
(`ei_cli/workflow/parallel.py`), the `RateLimiter`
(`ei_cli/core/rate_limiter.py`) and the `AudioChunker`
(`ei_cli/services/audio_chunker.py`).  The implementation modules are
not present in the tree (only their unit tests are), so every operation
below is modelled from the specification, cross-checked against the
behaviour pinned down by the unit tests.
-/

set_option maxHeartbeats 1000000

/-- A captured Python exception: its class name and its message. -/
structure Exn where
  ty : String
  msg : String
deriving DecidableEq, Repr

/-- A Python value as it appears in an executor result list: `None`, a
string payload, an integer, or an exception object.  Success and failure
entries live in the same list and are told apart only by
`isException`. -/
inductive PyVal where
  | noneVal
  | str (s : String)
  | int (n : Int)
  | exn (e : Exn)
deriving DecidableEq, Repr

/-- `isinstance(r, Exception)` on a result entry. -/
def isException : PyVal → Bool
  | .exn _ => true
  | _ => false

/-- Modelled from the spec: a unit of work handed to `ParallelExecutor.run`
(missing module `ei_cli/workflow/parallel.py`).  A task invoked with no
arguments either returns a value (`.ok`) or raises (`.error`). -/
def TaskOutcome : Type := Except Exn PyVal

/-- Modelled from the spec: how the executor records one task's outcome in
the result sequence — a success contributes its value, a failure is
captured as the original exception object itself. -/
def capture : Except Exn PyVal → PyVal
  | .ok v => v
  | .error e => .exn e

/-- Modelled from the spec: the suspension-capable mode
`ParallelExecutor.run_parallel_async` (missing module
`ei_cli/workflow/parallel.py`), which gathers all task outcomes and
returns them in input order. -/
def runParallelAsync (tasks : List (Except Exn PyVal)) : List PyVal :=
  tasks.map capture

/-- Modelled from the spec: the fixed-size result slot array of the
synchronous mode — each completing worker writes its own slot by index,
in an arbitrary completion `order`. -/
def writeSlots (tasks : List (Except Exn PyVal)) (order : List Nat)
    (acc : List PyVal) : List PyVal :=
  match order with
  | [] => acc
  | i :: rest =>
      writeSlots tasks rest
        (match tasks[i]? with
         | some t => acc.set i (capture t)
         | none => acc)

/-- Modelled from the spec: the blocking mode
`ParallelExecutor.run_parallel_sync` (missing module
`ei_cli/workflow/parallel.py`): slots pre-sized to the task count are
filled by workers in completion `order`; the result is the slot array. -/
def runParallelSync (tasks : List (Except Exn PyVal)) (order : List Nat) :
    List PyVal :=
  writeSlots tasks order (List.replicate tasks.length PyVal.noneVal)

/-- Modelled from the spec: `ParallelExecutor.filter_results` (missing
module `ei_cli/workflow/parallel.py`).  Walks the result list; an
exception entry is re-raised when `raiseErrors` is set, dropped
otherwise; success entries are kept in order. -/
def filter_results : List PyVal → Bool → Except Exn (List PyVal)
  | [], _ => .ok []
  | r :: rs, raiseErrors =>
      match r with
      | .exn e =>
          if raiseErrors then .error e
          else filter_results rs raiseErrors
      | v => (filter_results rs raiseErrors).map (fun l => v :: l)

/-- Modelled from the spec: `ParallelExecutor.get_errors` (missing module
`ei_cli/workflow/parallel.py`): the captured failures only, in order. -/
def get_errors : List PyVal → List PyVal
  | [] => []
  | r :: rs =>
      match r with
      | .exn e => .exn e :: get_errors rs
      | _ => get_errors rs

/-- The first captured failure of a result list, in result order (the
spec's description of what `filter_results` re-raises). -/
def firstExn : List PyVal → Option Exn
  | [] => none
  | .exn e :: _ => some e
  | _ :: rs => firstExn rs

lemma writeSlots_length (tasks : List (Except Exn PyVal)) (order : List Nat)
    (acc : List PyVal) : (writeSlots tasks order acc).length = acc.length := by
  induction order generalizing acc with
  | nil => rfl
  | cons i rest ih =>
      simp only [writeSlots]
      cases h : tasks[i]? with
      | none => simp [ih]
      | some t => simp [ih]

lemma writeSlots_getElem? (tasks : List (Except Exn PyVal)) (order : List Nat)
    (acc : List PyVal) (hacc : acc.length = tasks.length)
    (hbound : ∀ i ∈ order, i < tasks.length) (j : Nat) :
    (writeSlots tasks order acc)[j]? =
      if j ∈ order then (tasks[j]?).map capture else acc[j]? := by
  induction order generalizing acc with
  | nil => simp [writeSlots]
  | cons i rest ih =>
      have hi : i < tasks.length := hbound i (by simp)
      have hrest : ∀ k ∈ rest, k < tasks.length := fun k hk => hbound k (by simp [hk])
      have ht : tasks[i]? = some tasks[i] := List.getElem?_eq_getElem hi
      simp only [writeSlots, ht]
      rw [ih (acc.set i (capture tasks[i])) (by simp [hacc]) hrest]
      by_cases hjr : j ∈ rest
      · simp [hjr]
      · by_cases hji : j = i
        · subst hji
          simp [hjr, List.getElem?_set, hacc ▸ hi, ht]
        · simp [hjr, hji, List.getElem?_set, Ne.symm hji]

lemma runParallelSync_eq_map (tasks : List (Except Exn PyVal))
    (order : List Nat) (hperm : ∀ i, i < tasks.length → i ∈ order)
    (hbound : ∀ i ∈ order, i < tasks.length) :
    runParallelSync tasks order = tasks.map capture := by
  apply List.ext_getElem?
  intro j
  rw [runParallelSync, writeSlots_getElem? tasks order _ (by simp) hbound]
  by_cases hj : j < tasks.length
  · simp [hperm j hj, List.getElem?_map]
  · have hj' : ¬ j ∈ order := fun h => hj (hbound j h)
    have hle : tasks.length ≤ j := le_of_not_lt hj
    rw [if_neg hj']
    rw [List.getElem?_eq_none (by simpa using hle),
      List.getElem?_eq_none (by simpa using hle)]

lemma writeSlots_congr (t1 t2 : List (Except Exn PyVal)) (order : List Nat)
    (acc : List PyVal)
    (h : ∀ i : Nat, (t1[i]?).map capture = (t2[i]?).map capture) :
    writeSlots t1 order acc = writeSlots t2 order acc := by
  induction order generalizing acc with
  | nil => rfl
  | cons i rest ih =>
      simp only [writeSlots]
      have hi := h i
      cases h1 : t1[i]? with
      | none =>
          cases h2 : t2[i]? with
          | none => exact ih _
          | some t => simp [h1, h2] at hi
      | some t =>
          cases h2 : t2[i]? with
          | none => simp [h1, h2] at hi
          | some u =>
              rw [h1, h2] at hi
              simp only [Option.map] at hi
              rw [Option.some.injEq] at hi
              show writeSlots t1 rest (acc.set i (capture t)) =
                writeSlots t2 rest (acc.set i (capture u))
              rw [hi]
              exact ih _

/-- C1: in both modes of `ParallelExecutor`, the result has one entry per
task in input order (for any completion order of the workers); a failing
task's error is captured at its own index while every sibling still
contributes its value; the empty task list gives the empty result. -/
theorem parallel_run_ordered_and_isolated (tasks : List (Except Exn PyVal))
    (order : List Nat) (hperm : ∀ i, i < tasks.length → i ∈ order)
    (hbound : ∀ i ∈ order, i < tasks.length) :
    runParallelSync tasks order = tasks.map capture ∧
    runParallelAsync tasks = tasks.map capture ∧
    (runParallelSync tasks order).length = tasks.length ∧
    (runParallelAsync tasks).length = tasks.length ∧
    (∀ (k : Nat) (e : Exn), tasks[k]? = some (Except.error e) →
      (runParallelSync tasks order)[k]? = some (PyVal.exn e) ∧
      (runParallelAsync tasks)[k]? = some (PyVal.exn e)) ∧
    (∀ (k : Nat) (v : PyVal), tasks[k]? = some (Except.ok v) →
      (runParallelSync tasks order)[k]? = some v ∧
      (runParallelAsync tasks)[k]? = some v) ∧
    runParallelSync [] [] = [] ∧ runParallelAsync [] = [] := by
  have hs := runParallelSync_eq_map tasks order hperm hbound
  refine ⟨hs, rfl, ?_, ?_, ?_, ?_, rfl, rfl⟩
  · rw [hs]; simp
  · simp [runParallelAsync]
  · intro k e hk
    rw [hs]
    constructor <;> simp [runParallelAsync, List.getElem?_map, hk, capture]
  · intro k v hk
    rw [hs]
    constructor <;> simp [runParallelAsync, List.getElem?_map, hk, capture]

theorem parallel_run_witness :
    runParallelSync
      [Except.ok (PyVal.str "result1"),
       Except.error ⟨"ValueError", "Task 2 failed"⟩,
       Except.ok (PyVal.str "result3")] [2, 0, 1] =
      [PyVal.str "result1", PyVal.exn ⟨"ValueError", "Task 2 failed"⟩,
       PyVal.str "result3"] := by
  have h := parallel_run_ordered_and_isolated
    [Except.ok (PyVal.str "result1"),
     Except.error ⟨"ValueError", "Task 2 failed"⟩,
     Except.ok (PyVal.str "result3")] [2, 0, 1] (by decide) (by decide)
  exact h.1.trans (by rfl)

/-- C5: `filter_results` with `raise_errors` unset keeps exactly the
non-exception entries in order; with it set and a captured failure
present, it re-raises the first failure in result order. -/
theorem filter_results_spec (rs : List PyVal) :
    filter_results rs false = Except.ok (rs.filter (fun r => !isException r)) ∧
    (∀ e, firstExn rs = some e → filter_results rs true = Except.error e) := by
  induction rs with
  | nil => exact ⟨rfl, by intro e h; simp [firstExn] at h⟩
  | cons r rs ih =>
      constructor
      · cases r with
        | exn e => simpa [filter_results, isException] using ih.1
        | noneVal => simp [filter_results, isException, Except.map, ih.1]
        | str s => simp [filter_results, isException, Except.map, ih.1]
        | int n => simp [filter_results, isException, Except.map, ih.1]
      · intro e he
        cases r with
        | exn e' =>
            simp only [firstExn, Option.some.injEq] at he
            simp [filter_results, he]
        | noneVal =>
            simp only [firstExn] at he
            simp [filter_results, Except.map, ih.2 e he]
        | str s =>
            simp only [firstExn] at he
            simp [filter_results, Except.map, ih.2 e he]
        | int n =>
            simp only [firstExn] at he
            simp [filter_results, Except.map, ih.2 e he]

theorem filter_results_witness :
    filter_results
      [PyVal.str "result1", PyVal.exn ⟨"ValueError", "error"⟩,
       PyVal.str "result3"] false =
      Except.ok [PyVal.str "result1", PyVal.str "result3"] ∧
    filter_results
      [PyVal.str "result1", PyVal.exn ⟨"ValueError", "error"⟩,
       PyVal.str "result3"] true =
      Except.error ⟨"ValueError", "error"⟩ := by
  have h := filter_results_spec
    [PyVal.str "result1", PyVal.exn ⟨"ValueError", "error"⟩,
     PyVal.str "result3"]
  exact ⟨h.1.trans (by rfl), h.2 ⟨"ValueError", "error"⟩ (by rfl)⟩

/-- C9: a captured failure is the original exception object itself, and
success is told from failure only by `isinstance(_, Exception)`: a task
that returns an exception value yields, in both modes, a result list
identical to that of a task raising the same exception, and `get_errors`
returns exactly the exception-valued entries in order. -/
theorem captured_failures_are_exception_entries
    (tasks : List (Except Exn PyVal)) (order : List Nat) (k : Nat) (e : Exn)
    (rs : List PyVal) :
    get_errors rs = rs.filter isException ∧
    runParallelSync (tasks.set k (Except.error e)) order =
      runParallelSync (tasks.set k (Except.ok (PyVal.exn e))) order ∧
    runParallelAsync (tasks.set k (Except.error e)) =
      runParallelAsync (tasks.set k (Except.ok (PyVal.exn e))) := by
  refine ⟨?_, ?_, ?_⟩
  · induction rs with
    | nil => rfl
    | cons r rs ih =>
        cases r with
        | exn e' => simp [get_errors, isException, ih]
        | noneVal => simp [get_errors, isException, ih]
        | str s => simp [get_errors, isException, ih]
        | int n => simp [get_errors, isException, ih]
  · unfold runParallelSync
    rw [List.length_set, List.length_set]
    apply writeSlots_congr
    intro i
    by_cases hik : i = k
    · subst hik
      by_cases hi : i < tasks.length
      · simp [List.getElem?_set, hi, capture]
      · simp [List.getElem?_set, hi]
    · simp [List.getElem?_set, Ne.symm hik, hik]
  · unfold runParallelAsync
    rw [List.map_set, List.map_set]
    rfl

/-- Modelled from the spec: the `RateLimiter` of the missing module
`ei_cli/core/rate_limiter.py` — sliding-window admission control.  Its
state is the ordered list of timestamps of admitted calls.  The lock
making each admission check atomic is modelled by treating
`can_proceed` as one indivisible step. -/
structure RateLimiter where
  max_requests : Nat
  window_seconds : ℚ
  requests : List ℚ
deriving DecidableEq, Repr

/-- The timestamps still inside the trailing window at time `now`:
pruning drops every timestamp `t` with `now - t ≥ window_seconds`. -/
def RateLimiter.pruneAt (rl : RateLimiter) (now : ℚ) : List ℚ :=
  rl.requests.filter (fun t => now - t < rl.window_seconds)

/-- Modelled from the spec: `RateLimiter.can_proceed` (missing module
`ei_cli/core/rate_limiter.py`).  Prunes, then either records `now` and
admits with wait 0, or refuses with the wait until the oldest remaining
timestamp leaves the window.  Returns the updated limiter, the
admission flag and the wait time. -/
def RateLimiter.can_proceed (rl : RateLimiter) (now : ℚ) :
    RateLimiter × Bool × ℚ :=
  let pruned := rl.pruneAt now
  if pruned.length < rl.max_requests then
    ({ rl with requests := pruned ++ [now] }, true, 0)
  else
    ({ rl with requests := pruned }, false,
      (pruned.head?.getD now) + rl.window_seconds - now)

/-- A sequence of atomic `can_proceed` calls at the given timestamps,
collecting the admission flags in call order. -/
def runCalls (rl : RateLimiter) : List ℚ → RateLimiter × List Bool
  | [] => (rl, [])
  | t :: ts =>
      match rl.can_proceed t with
      | (rl', ok, _) =>
          match runCalls rl' ts with
          | (rlF, bs) => (rlF, ok :: bs)

/-- C2: `can_proceed` first prunes stale timestamps; below the limit it
records `now` and admits with wait 0; at the limit it records nothing
and refuses with wait `oldest + window − now`, which lies in
`(0, window_seconds]`. -/
theorem can_proceed_spec (rl : RateLimiter) (now : ℚ)
    (hmax : 0 < rl.max_requests)
    (hsort : rl.requests.Chain' (· ≤ ·))
    (hle : ∀ t ∈ rl.requests, t ≤ now) :
    ((rl.pruneAt now).length < rl.max_requests →
      rl.can_proceed now =
        ({ rl with requests := rl.pruneAt now ++ [now] }, true, 0)) ∧
    (rl.max_requests ≤ (rl.pruneAt now).length →
      ∃ o, (rl.pruneAt now).head? = some o ∧
        (∀ t ∈ rl.pruneAt now, o ≤ t) ∧
        rl.can_proceed now =
          ({ rl with requests := rl.pruneAt now }, false,
            o + rl.window_seconds - now) ∧
        0 < o + rl.window_seconds - now ∧
        o + rl.window_seconds - now ≤ rl.window_seconds) := by
  constructor
  · intro hlt
    simp only [RateLimiter.can_proceed]
    rw [if_pos hlt]
  · intro hge
    have hne : rl.pruneAt now ≠ [] := by
      intro h
      rw [h] at hge
      simp at hge
      omega
    obtain ⟨o, rest, ho⟩ := List.exists_cons_of_ne_nil hne
    have hhead : (rl.pruneAt now).head? = some o := by rw [ho]; rfl
    have hsub : (rl.pruneAt now).Sublist rl.requests := List.filter_sublist _
    have hsort' : (rl.pruneAt now).Chain' (· ≤ ·) := List.Chain'.sublist hsort hsub
    have hmin : ∀ t ∈ rl.pruneAt now, o ≤ t := by
      intro t ht
      rw [ho] at ht hsort'
      rcases List.mem_cons.mp ht with h | h
      · exact le_of_eq h.symm
      · have := (List.chain'_iff_pairwise.mp hsort')
        exact (List.pairwise_cons.mp this).1 t h
    have homem : o ∈ rl.pruneAt now := by rw [ho]; simp
    have hofil := List.of_mem_filter homem
    have hoin : o ∈ rl.requests := List.mem_of_mem_filter homem
    have holt : now - o < rl.window_seconds := by
      simpa using hofil
    have hole : o ≤ now := hle o hoin
    refine ⟨o, hhead, hmin, ?_, by linarith, by linarith⟩
    simp only [RateLimiter.can_proceed]
    rw [if_neg (not_lt.mpr hge), hhead]
    rfl

theorem can_proceed_witness :
    (RateLimiter.can_proceed ⟨2, 1, []⟩ 0 = (⟨2, 1, [0]⟩, true, 0)) ∧
    (RateLimiter.can_proceed ⟨1, 1, [0]⟩ (1/2) = (⟨1, 1, [0]⟩, false, 1/2)) := by
  have hp1 : RateLimiter.pruneAt ⟨2, 1, []⟩ 0 = [] := rfl
  have hp2 : RateLimiter.pruneAt ⟨1, 1, [0]⟩ (1/2) = [0] := by
    simp only [RateLimiter.pruneAt, List.filter_cons, List.filter_nil]
    norm_num
  have h1 := can_proceed_spec ⟨2, 1, []⟩ 0 (by decide) (by simp) (by simp)
  have h2 := can_proceed_spec ⟨1, 1, [0]⟩ (1/2) (by decide) (by simp)
    (by intro t ht; simp at ht; rw [ht]; norm_num)
  constructor
  · have h := h1.1 (by rw [hp1]; decide)
    rw [h, hp1]
    rfl
  · obtain ⟨o, hh, _, heq, _, _⟩ := h2.2 (by rw [hp2]; decide)
    rw [hp2] at hh heq
    simp only [List.head?_cons, Option.some.injEq] at hh
    rw [heq, ← hh]
    simp only [Prod.mk.injEq]
    norm_num

lemma runCalls_admits (w : ℚ) (maxq : Nat) :
    ∀ (ts : List ℚ) (rs : List ℚ),
      (∀ s ∈ rs, ∀ t ∈ ts, t - s < w) →
      ts.Pairwise (fun a b => b - a < w) →
      (runCalls ⟨maxq, w, rs⟩ ts).2 =
        List.replicate (min ts.length (maxq - rs.length)) true ++
        List.replicate (ts.length - (maxq - rs.length)) false := by
  intro ts
  induction ts with
  | nil => intro rs _ _; simp [runCalls]
  | cons t ts ih =>
      intro rs h1 h2
      have hfil : rs.filter (fun s => t - s < w) = rs := by
        apply List.filter_eq_self.mpr
        intro s hs
        exact decide_eq_true (h1 s hs t (by simp))
      have hpr : RateLimiter.pruneAt ⟨maxq, w, rs⟩ t = rs := hfil
      have hts : ∀ u ∈ ts, u - t < w := (List.pairwise_cons.mp h2).1
      by_cases hlt : rs.length < maxq
      · have hcp : RateLimiter.can_proceed ⟨maxq, w, rs⟩ t =
            (⟨maxq, w, rs ++ [t]⟩, true, 0) := by
          simp only [RateLimiter.can_proceed, hpr]
          rw [if_pos hlt]
        have hrec := ih (rs ++ [t])
          (by
            intro s hs u hu
            rcases List.mem_append.mp hs with h | h
            · exact h1 s h u (by simp [hu])
            · simp at h
              rw [h]
              exact hts u hu)
          ((List.pairwise_cons.mp h2).2)
        simp only [runCalls, hcp, hrec, List.length_append, List.length_cons,
          List.length_nil]
        have hk : maxq - rs.length = (maxq - (rs.length + 0 + 1)) + 1 := by omega
        rw [hk]
        have e1 : (ts.length + 1) ⊓ ((maxq - (rs.length + 0 + 1)) + 1) =
            (ts.length ⊓ (maxq - (rs.length + 0 + 1))) + 1 := by omega
        have e2 : (ts.length + 1) - ((maxq - (rs.length + 0 + 1)) + 1) =
            ts.length - (maxq - (rs.length + 0 + 1)) := by omega
        rw [e1, e2, List.replicate_succ, List.cons_append]
      · have hcp : RateLimiter.can_proceed ⟨maxq, w, rs⟩ t =
            (⟨maxq, w, rs⟩, false,
              (rs.head?.getD t) + w - t) := by
          simp only [RateLimiter.can_proceed, hpr]
          rw [if_neg hlt]
        have hrec := ih rs
          (fun s hs u hu => h1 s hs u (by simp [hu]))
          ((List.pairwise_cons.mp h2).2)
        simp only [runCalls, hcp, hrec]
        have hz : maxq - rs.length = 0 := by omega
        rw [hz]
        simp [List.replicate_succ]

/-- C8: admissions made through atomic `can_proceed` calls never jointly
exceed `max_requests` inside one window: 20 callers hitting a fresh
limiter with `max_requests = 10` inside a single window get exactly 10
admissions and 10 refusals, whatever the interleaving of the calls. -/
theorem rate_limiter_concurrent_cap (w : ℚ) (ts : List ℚ)
    (hlen : ts.length = 20)
    (hwin : ts.Pairwise (fun a b => b - a < w)) :
    (runCalls ⟨10, w, []⟩ ts).2.count true = 10 ∧
    (runCalls ⟨10, w, []⟩ ts).2.count false = 10 := by
  have h := runCalls_admits w 10 ts [] (by simp) hwin
  rw [h, hlen]
  constructor <;> simp [List.count_append, List.count_replicate]

theorem rate_limiter_concurrent_cap_witness :
    (runCalls ⟨10, 1, []⟩ (List.replicate 20 (0:ℚ))).2.count true = 10 ∧
    (runCalls ⟨10, 1, []⟩ (List.replicate 20 (0:ℚ))).2.count false = 10 := by
  apply rate_limiter_concurrent_cap 1 (List.replicate 20 (0:ℚ))
    (by simp)
  rw [List.pairwise_replicate]
  norm_num

/-- Modelled from the spec: `AudioChunkerError` of the missing module
`ei_cli/services/audio_chunker.py` — an `Exception` subclass whose
constructor stores the message as the sole base-class argument and keeps
a `message` attribute and a `details` mapping. -/
structure AudioChunkerError where
  args : List String
  message : String
  details : List (String × PyVal)
deriving DecidableEq, Repr

/-- Modelled from the spec: the constructor
`AudioChunkerError(message, details=None)`: calls the base `Exception`
constructor with `message`, sets `.message`, and sets `.details` to
`details or` the empty mapping (a falsy `details` value becomes the
empty mapping). -/
def mkAudioChunkerError (message : String)
    (details : Option (List (String × PyVal))) : AudioChunkerError :=
  { args := [message]
    message := message
    details :=
      match details with
      | none => []
      | some d => if d.isEmpty then [] else d }

/-- Python `str()` of an `Exception`: the sole positional argument when
there is exactly one, otherwise the rendered argument tuple. -/
def strOfError (e : AudioChunkerError) : String :=
  match e.args with
  | [a] => a
  | as => "(" ++ String.intercalate ", " as ++ ")"

/-- C10: `AudioChunkerError(m)` and `AudioChunkerError(m, details=d)`
render as `m` under `str()`, expose `.message = m`, and expose
`.details = d`, defaulting to the empty mapping when omitted. -/
theorem audio_chunker_error_fields (m : String) (d : List (String × PyVal)) :
    strOfError (mkAudioChunkerError m none) = m ∧
    (mkAudioChunkerError m none).message = m ∧
    (mkAudioChunkerError m none).details = [] ∧
    strOfError (mkAudioChunkerError m (some d)) = m ∧
    (mkAudioChunkerError m (some d)).message = m ∧
    (mkAudioChunkerError m (some d)).details = d := by
  refine ⟨rfl, rfl, rfl, rfl, rfl, ?_⟩
  simp only [mkAudioChunkerError]
  by_cases h : d.isEmpty
  · rw [if_pos h]
    exact (List.isEmpty_iff.mp h).symm
  · rw [if_neg h]

/-- The 25 MiB chunking threshold (`MAX_FILE_SIZE_MB = 25`). -/
def MAX_FILE_SIZE : Nat := 25 * 1024 * 1024

/-- Modelled from the spec: `AudioChunker.needs_chunking` (missing module
`ei_cli/services/audio_chunker.py`).  `fs` models the file system,
giving the size in bytes of each existing path; a missing path is a
fatal input error, an existing one is chunked iff strictly larger than
the threshold. -/
def needs_chunking (fs : String → Option Nat) (path : String) :
    Except AudioChunkerError Bool :=
  match fs path with
  | none => .error (mkAudioChunkerError ("Audio file not found: " ++ path) none)
  | some size => .ok (decide (size > MAX_FILE_SIZE))

/-- C3: for an existing file of size `s`, `needs_chunking` returns true
iff `s` strictly exceeds 25 MiB — false at exactly 25 MiB and for an
empty file — and a missing file raises a file-not-found
`AudioChunkerError` instead of returning a value. -/
theorem needs_chunking_spec (fs : String → Option Nat) (p : String) :
    (∀ s, fs p = some s →
      (needs_chunking fs p = Except.ok true ↔ 25 * 1024 * 1024 < s)) ∧
    (fs p = some (25 * 1024 * 1024) → needs_chunking fs p = Except.ok false) ∧
    (fs p = some 0 → needs_chunking fs p = Except.ok false) ∧
    (fs p = none → needs_chunking fs p =
      Except.error (mkAudioChunkerError ("Audio file not found: " ++ p) none)) := by
  refine ⟨?_, ?_, ?_, ?_⟩
  · intro s hs
    simp [needs_chunking, hs, MAX_FILE_SIZE]
  · intro hs
    simp [needs_chunking, hs, MAX_FILE_SIZE]
  · intro hs
    simp [needs_chunking, hs, MAX_FILE_SIZE]
  · intro hs
    simp [needs_chunking, hs]

theorem needs_chunking_witness :
    needs_chunking (fun q => if q = "audio.mp3" then some 0 else none)
      "audio.mp3" = Except.ok false ∧
    needs_chunking (fun q => if q = "audio.mp3" then some 0 else none)
      "missing.mp3" =
      Except.error
        (mkAudioChunkerError ("Audio file not found: " ++ "missing.mp3") none) := by
  have h1 := needs_chunking_spec
    (fun q => if q = "audio.mp3" then some 0 else none) "audio.mp3"
  have h2 := needs_chunking_spec
    (fun q => if q = "audio.mp3" then some 0 else none) "missing.mp3"
  exact ⟨h1.2.2.1 (by simp), h2.2.2.2 (by simp)⟩

/-- Modelled from the spec: the chunk count computed by
`AudioChunker.split_audio` (missing module
`ei_cli/services/audio_chunker.py`): the ceiling of
`total_duration / chunk_duration`. -/
def chunkCount (total chunk_duration : ℚ) : Nat :=
  (⌈total / chunk_duration⌉).toNat

/-- Zero-pad a decimal numeral to width 4 (Python format `04d`). -/
def pad4 (n : Nat) : String :=
  String.mk (List.replicate (4 - (toString n).length) '0') ++ toString n

/-- The output filename of chunk `i`: `chunk_` then the index zero-padded
to 4 digits, then `.wav`. -/
def chunkName (i : Nat) : String := "chunk_" ++ pad4 i ++ ".wav"

/-- Modelled from the spec: the per-chunk layout of
`AudioChunker.split_audio` — for each index `i` below the chunk count,
start `i * chunk_duration` and duration
`min chunk_duration (total - start)`. -/
def split_chunks (total chunk_duration : ℚ) : List (ℚ × ℚ) :=
  (List.range (chunkCount total chunk_duration)).map
    (fun i : Nat => ((i : ℚ) * chunk_duration,
      min chunk_duration (total - (i : ℚ) * chunk_duration)))

/-- Modelled from the spec: the ordered chunk file paths returned by
`AudioChunker.split_audio`, index 0 first. -/
def split_paths (output_dir : String) (total chunk_duration : ℚ) :
    List String :=
  (List.range (chunkCount total chunk_duration)).map
    (fun i => output_dir ++ "/" ++ chunkName i)

lemma range_map_sub_sum (f : Nat → ℚ) (n : Nat) :
    ((List.range n).map (fun i => f (i + 1) - f i)).sum = f n - f 0 := by
  induction n with
  | zero => simp
  | succ n ih =>
      rw [List.range_succ, List.map_append, List.sum_append, ih]
      simp only [List.map_cons, List.map_nil, List.sum_cons, List.sum_nil]
      ring

/-- C4: `split_audio` produces exactly `ceil(total / chunk_duration)`
chunks; chunk `i` starts at `i * chunk_duration` with duration
`min chunk_duration (total - start)`; the durations sum to `total`
exactly; and the returned paths are ordered by index with filenames
`chunk_0000.wav`, `chunk_0001.wav`, and so on. -/
theorem split_chunks_spec (output_dir : String) (total c : ℚ)
    (htotal : 0 < total) (hc : 0 < c) :
    ((chunkCount total c : ℤ) = ⌈total / c⌉) ∧
    (split_chunks total c).length = chunkCount total c ∧
    (∀ i, i < chunkCount total c →
      (split_chunks total c)[i]? =
        some ((i : ℚ) * c, min c (total - (i : ℚ) * c))) ∧
    ((split_chunks total c).map (fun p => p.2)).sum = total ∧
    (split_paths output_dir total c).length = chunkCount total c ∧
    (∀ i, i < chunkCount total c →
      (split_paths output_dir total c)[i]? =
        some (output_dir ++ "/" ++ chunkName i)) := by
  have hceil_pos : 0 < ⌈total / c⌉ := Int.ceil_pos.mpr (div_pos htotal hc)
  have hcast : ((chunkCount total c : ℕ) : ℤ) = ⌈total / c⌉ :=
    Int.toNat_of_nonneg (le_of_lt hceil_pos)
  have hcastQ : ((chunkCount total c : ℕ) : ℚ) = ((⌈total / c⌉ : ℤ) : ℚ) := by
    exact_mod_cast hcast
  have hle : total ≤ (chunkCount total c : ℚ) * c := by
    have h1 : total / c ≤ ((⌈total / c⌉ : ℤ) : ℚ) := Int.le_ceil _
    rw [← hcastQ] at h1
    exact (div_le_iff₀ hc).mp h1
  have hmem : ∀ i : Nat, i < chunkCount total c → (i : ℚ) * c < total := by
    intro i hi
    have h1 : ((⌈total / c⌉ : ℤ) : ℚ) - 1 < total / c := by
      have := Int.lt_ceil.mp (sub_one_lt ⌈total / c⌉)
      push_cast at this
      linarith
    have h2 : (i : ℚ) ≤ (chunkCount total c : ℚ) - 1 := by
      have hn : (i : ℕ) + 1 ≤ chunkCount total c := hi
      have := (Nat.cast_le (α := ℚ)).mpr hn
      push_cast at this
      linarith
    rw [hcastQ] at h2
    have h3 : (i : ℚ) < total / c := by linarith
    exact (lt_div_iff₀ hc).mp h3
  refine ⟨hcast, ?_, ?_, ?_, ?_, ?_⟩
  · simp only [split_chunks]
    rw [List.length_map, List.length_range]
  · intro i hi
    simp only [split_chunks]
    rw [List.getElem?_map]
    simp [List.getElem?_range, hi]
  · have hmap : (split_chunks total c).map (fun p => p.2) =
        (List.range (chunkCount total c)).map
          (fun i : Nat => min c (total - (i : ℚ) * c)) := by
      simp only [split_chunks, List.map_map]
      rfl
    rw [hmap]
    have hcong : (List.range (chunkCount total c)).map
          (fun i : Nat => min c (total - (i : ℚ) * c)) =
        (List.range (chunkCount total c)).map
          (fun i : Nat => (fun j : Nat => min ((j : ℚ) * c) total) (i + 1) -
            (fun j : Nat => min ((j : ℚ) * c) total) i) := by
      apply List.map_congr_left
      intro i hi
      show min c (total - (i : ℚ) * c) =
        min (((i + 1 : ℕ) : ℚ) * c) total - min (((i : ℕ) : ℚ) * c) total
      have hi' : i < chunkCount total c := List.mem_range.mp hi
      have hic : (i : ℚ) * c < total := hmem i hi'
      have hpc : ((i + 1 : ℕ) : ℚ) = (i : ℚ) + 1 := by push_cast; ring
      rw [hpc, min_eq_left (le_of_lt hic)]
      rcases le_total (((i : ℚ) + 1) * c) total with h | h
      · rw [min_eq_left h, min_eq_left (by nlinarith : c ≤ total - (i : ℚ) * c)]
        ring
      · rw [min_eq_right h, min_eq_right (by nlinarith : total - (i : ℚ) * c ≤ c)]
    rw [hcong]
    have htel := range_map_sub_sum (fun j : Nat => min ((j : ℚ) * c) total)
      (chunkCount total c)
    rw [htel]
    show min (((chunkCount total c : ℕ) : ℚ) * c) total -
      min (((0 : ℕ) : ℚ) * c) total = total
    rw [min_eq_right hle]
    rw [show ((0 : ℕ) : ℚ) * c = 0 by simp]
    rw [min_eq_left (le_of_lt htotal)]
    ring
  · simp only [split_paths]
    rw [List.length_map, List.length_range]
  · intro i hi
    simp only [split_paths]
    rw [List.getElem?_map]
    simp [List.getElem?_range, hi]

theorem split_chunks_witness :
    chunkCount 1500 600 = 3 ∧
    (split_chunks 1500 600).length = 3 ∧
    ((split_chunks 1500 600).map (fun p => p.2)).sum = 1500 ∧
    (split_chunks 1500 600)[2]? = some (1200, 300) ∧
    (split_paths "out" 1500 600)[0]? = some "out/chunk_0000.wav" ∧
    (split_paths "out" 1500 600)[2]? = some "out/chunk_0002.wav" := by
  have hcc : chunkCount 1500 600 = 3 := by
    have hceil : (⌈(1500 : ℚ) / 600⌉) = 3 := by
      rw [Int.ceil_eq_iff]
      constructor <;> norm_num
    simp [chunkCount, hceil]
  have h := split_chunks_spec "out" 1500 600 (by norm_num) (by norm_num)
  refine ⟨hcc, ?_, h.2.2.2.1, ?_, ?_, ?_⟩
  · rw [h.2.1, hcc]
  · have h2 := h.2.2.1 2 (by rw [hcc]; norm_num)
    rw [h2]
    simp only [Option.some.injEq, Prod.mk.injEq]
    constructor
    · norm_num
    · rw [min_eq_right (by norm_num : (1500 : ℚ) - (2 : ℕ) * 600 ≤ 600)]
      norm_num
  · have h0 := h.2.2.2.2.2 0 (by rw [hcc]; norm_num)
    rw [h0]
    decide
  · have h2 := h.2.2.2.2.2 2 (by rw [hcc]; norm_num)
    rw [h2]
    decide

/-- Modelled from the spec: one parsed structured (JSON-object) chunk
handed to `AudioChunker.merge_transcriptions` — an association of field
names to string values.  `getText` is the Python `data.get` of the
`text` field with the empty string as default for a missing key. -/
def getText (chunk : List (String × String)) : String :=
  (chunk.lookup "text").getD ""

/-- Python `" ".join`: the elements interleaved with single spaces. -/
def joinSpace : List String → String
  | [] => ""
  | [t] => t
  | t :: ts => t ++ " " ++ joinSpace ts

/-- Modelled from the spec: `AudioChunker.merge_transcriptions` for the
structured (JSON) format (missing module
`ei_cli/services/audio_chunker.py`): extract each chunk's `text` field,
join with single spaces, and emit one object holding the combined
`text` field only. -/
def merge_json (chunks : List (List (String × String))) :
    List (String × String) :=
  [("text", joinSpace (chunks.map getText))]

/-- C7: `merge` of structured chunks emits a single object whose `text`
field is the space-join of each chunk's `text` field, a missing key
contributing the empty string; the spec's three-chunk example yields the
combined text with a double space from the empty middle chunk. -/
theorem merge_json_spec (chunks : List (List (String × String))) :
    (merge_json chunks).lookup "text" =
      some (joinSpace (chunks.map getText)) ∧
    (∀ chunk ∈ chunks, chunk.lookup "text" = none → getText chunk = "") ∧
    (∀ c cs, cs ≠ [] → joinSpace (c :: cs) = c ++ " " ++ joinSpace cs) ∧
    merge_json [[("text", "First")], [], [("text", "Third")]] =
      [("text", "First  Third")] := by
  refine ⟨rfl, ?_, ?_, ?_⟩
  · intro chunk _ hnone
    simp [getText, hnone]
  · intro c cs hcs
    cases cs with
    | nil => exact absurd rfl hcs
    | cons c2 rest => rfl
  · decide

theorem merge_json_witness :
    merge_json [[("text", "First")], [], [("text", "Third")]] =
      [("text", "First  Third")] ∧
    getText ([] : List (String × String)) = "" := by
  have h := merge_json_spec [[("text", "First")], [], [("text", "Third")]]
  exact ⟨h.2.2.2, h.2.1 [] (by simp) rfl⟩

/-- The numeric value of an ASCII digit character, `None` otherwise. -/
def digit? (c : Char) : Option Nat :=
  if ('0' ≤ c ∧ c ≤ '9') then some (c.toNat - '0'.toNat) else none

/-- The ASCII digit character of a value below ten. -/
def digitChar (n : Nat) : Char := Char.ofNat ('0'.toNat + n)

/-- Two-digit zero-padded decimal rendering. -/
def render2 (n : Nat) : List Char := [digitChar (n / 10), digitChar (n % 10)]

/-- Three-digit zero-padded decimal rendering. -/
def render3 (n : Nat) : List Char :=
  [digitChar (n / 100), digitChar (n / 10 % 10), digitChar (n % 10)]

/-- Render a subtitle timestamp from a total-millisecond count in the
zero-padded `HH:MM:SS` form, with `sep` (comma for SRT, dot for VTT)
before the three millisecond digits. -/
def renderTime (ms : Nat) (sep : Char) : String :=
  String.mk (render2 (ms / 3600000) ++ [':'] ++ render2 (ms / 60000 % 60) ++
    [':'] ++ render2 (ms / 1000 % 60) ++ [sep] ++ render3 (ms % 1000))

/-- Whether a character is one of the two timestamp separator styles. -/
def isSep (c : Char) : Bool := c = ',' || c = '.'

/-- Parse the eight digit characters and implied layout of one timestamp
into a total-millisecond count. -/
def parseTime (h1 h2 m1 m2 s1 s2 x1 x2 x3 : Char) : Option Nat :=
  match digit? h1, digit? h2, digit? m1, digit? m2, digit? s1, digit? s2,
      digit? x1, digit? x2, digit? x3 with
  | some a, some b, some c, some d, some e, some f, some g, some p, some q =>
      some ((((a * 10 + b) * 60 + (c * 10 + d)) * 60 + (e * 10 + f)) * 1000 +
        (g * 100 + p * 10 + q))
  | _, _, _, _, _, _, _, _, _ => none

/-- Parse a full timestamp line `<time> --> <time>`, keeping each
endpoint's millisecond value and separator style. -/
def parseLine : List Char → Option (Nat × Char × Nat × Char)
  | [a1, a2, c1, a3, a4, c2, a5, a6, sA, b1, b2, b3,
     g1, g2, g3, g4, g5,
     d1, d2, e1, d3, d4, e2, d5, d6, sB, f1, f2, f3] =>
      if (c1 = ':' && c2 = ':' && e1 = ':' && e2 = ':' &&
          g1 = ' ' && g2 = '-' && g3 = '-' && g4 = '>' && g5 = ' ' &&
          isSep sA && isSep sB) then
        match parseTime a1 a2 a3 a4 a5 a6 b1 b2 b3,
            parseTime d1 d2 d3 d4 d5 d6 f1 f2 f3 with
        | some t1, some t2 => some (t1, sA, t2, sB)
        | _, _ => none
      else none
  | _ => none

/-- The new total-millisecond count after adding `offset` seconds. -/
def addOffset (ms : Nat) (offset : ℚ) : Nat :=
  (⌊(ms : ℚ) + offset * 1000⌋).toNat

/-- Modelled from the spec: `AudioChunker._adjust_timestamp` (missing
module `ei_cli/services/audio_chunker.py`): a line matching
`<time> --> <time>` has the offset added to both endpoints and is
re-rendered with each endpoint's original separator style; any other
line is returned unchanged. -/
def adjustTimestamp (line : String) (offset : ℚ) : String :=
  match parseLine line.data with
  | some (t1, s1, t2, s2) =>
      renderTime (addOffset t1 offset) s1 ++ " --> " ++
        renderTime (addOffset t2 offset) s2
  | none => line

lemma digit?_digitChar (d : Nat) (hd : d < 10) :
    digit? (digitChar d) = some d := by
  interval_cases d <;> decide

lemma parseTime_render (ms : Nat) (hms : ms < 360000000) :
    parseTime (digitChar (ms / 3600000 / 10)) (digitChar (ms / 3600000 % 10))
      (digitChar (ms / 60000 % 60 / 10)) (digitChar (ms / 60000 % 60 % 10))
      (digitChar (ms / 1000 % 60 / 10)) (digitChar (ms / 1000 % 60 % 10))
      (digitChar (ms % 1000 / 100)) (digitChar (ms % 1000 / 10 % 10))
      (digitChar (ms % 1000 % 10)) = some ms := by
  have e1 := digit?_digitChar (ms / 3600000 / 10) (by omega)
  have e2 := digit?_digitChar (ms / 3600000 % 10) (by omega)
  have e3 := digit?_digitChar (ms / 60000 % 60 / 10) (by omega)
  have e4 := digit?_digitChar (ms / 60000 % 60 % 10) (by omega)
  have e5 := digit?_digitChar (ms / 1000 % 60 / 10) (by omega)
  have e6 := digit?_digitChar (ms / 1000 % 60 % 10) (by omega)
  have e7 := digit?_digitChar (ms % 1000 / 100) (by omega)
  have e8 := digit?_digitChar (ms % 1000 / 10 % 10) (by omega)
  have e9 := digit?_digitChar (ms % 1000 % 10) (by omega)
  simp only [parseTime, e1, e2, e3, e4, e5, e6, e7, e8, e9]
  congr 1
  omega

lemma line_data (ms1 ms2 : Nat) (sep1 sep2 : Char) :
    (renderTime ms1 sep1 ++ " --> " ++ renderTime ms2 sep2).data =
      [digitChar (ms1 / 3600000 / 10), digitChar (ms1 / 3600000 % 10), ':',
       digitChar (ms1 / 60000 % 60 / 10), digitChar (ms1 / 60000 % 60 % 10), ':',
       digitChar (ms1 / 1000 % 60 / 10), digitChar (ms1 / 1000 % 60 % 10), sep1,
       digitChar (ms1 % 1000 / 100), digitChar (ms1 % 1000 / 10 % 10),
       digitChar (ms1 % 1000 % 10),
       ' ', '-', '-', '>', ' ',
       digitChar (ms2 / 3600000 / 10), digitChar (ms2 / 3600000 % 10), ':',
       digitChar (ms2 / 60000 % 60 / 10), digitChar (ms2 / 60000 % 60 % 10), ':',
       digitChar (ms2 / 1000 % 60 / 10), digitChar (ms2 / 1000 % 60 % 10), sep2,
       digitChar (ms2 % 1000 / 100), digitChar (ms2 % 1000 / 10 % 10),
       digitChar (ms2 % 1000 % 10)] := rfl

lemma parseLine_render (ms1 ms2 : Nat) (sep1 sep2 : Char)
    (h1 : ms1 < 360000000) (h2 : ms2 < 360000000)
    (hs1 : sep1 = ',' ∨ sep1 = '.') (hs2 : sep2 = ',' ∨ sep2 = '.') :
    parseLine (renderTime ms1 sep1 ++ " --> " ++ renderTime ms2 sep2).data =
      some (ms1, sep1, ms2, sep2) := by
  rw [line_data]
  have hp1 := parseTime_render ms1 h1
  have hp2 := parseTime_render ms2 h2
  rcases hs1 with h | h <;> rcases hs2 with h' | h' <;> subst h <;> subst h' <;>
    simp only [parseLine, hp1, hp2] <;> rfl

/-- C6: on a line `<time> --> <time>` (SRT comma style or VTT dot style),
`_adjust_timestamp` adds the offset to both endpoints and re-renders
with each endpoint's original separator style, zero-padded fields and
millisecond precision, carrying over minutes and hours; a zero offset
returns the line byte-identical. -/
theorem adjust_timestamp_spec (ms1 ms2 : Nat) (sep1 sep2 : Char) (t : ℚ)
    (h1 : ms1 < 360000000) (h2 : ms2 < 360000000)
    (hs1 : sep1 = ',' ∨ sep1 = '.') (hs2 : sep2 = ',' ∨ sep2 = '.') :
    adjustTimestamp (renderTime ms1 sep1 ++ " --> " ++ renderTime ms2 sep2) t =
      renderTime (addOffset ms1 t) sep1 ++ " --> " ++
        renderTime (addOffset ms2 t) sep2 ∧
    adjustTimestamp (renderTime ms1 sep1 ++ " --> " ++ renderTime ms2 sep2) 0 =
      renderTime ms1 sep1 ++ " --> " ++ renderTime ms2 sep2 := by
  have hz : ∀ m : Nat, addOffset m 0 = m := by
    intro m
    unfold addOffset
    rw [show (m : ℚ) + 0 * 1000 = ((m : ℕ) : ℚ) by ring]
    rw [Int.floor_natCast]
    exact Int.toNat_natCast m
  have hp := parseLine_render ms1 ms2 sep1 sep2 h1 h2 hs1 hs2
  constructor
  · unfold adjustTimestamp
    rw [hp]
  · unfold adjustTimestamp
    rw [hp]
    show renderTime (addOffset ms1 0) sep1 ++ " --> " ++
      renderTime (addOffset ms2 0) sep2 =
      renderTime ms1 sep1 ++ " --> " ++ renderTime ms2 sep2
    rw [hz ms1, hz ms2]

theorem adjust_timestamp_witness :
    adjustTimestamp "00:00:01,000 --> 00:00:05,000" 3600 =
      "01:00:01,000 --> 01:00:05,000" ∧
    adjustTimestamp "00:00:01,000 --> 00:00:05,000" 0 =
      "00:00:01,000 --> 00:00:05,000" := by
  have hline : renderTime 1000 ',' ++ " --> " ++ renderTime 5000 ',' =
      "00:00:01,000 --> 00:00:05,000" := by decide
  have h := adjust_timestamp_spec 1000 5000 ',' ',' 3600 (by norm_num)
    (by norm_num) (Or.inl rfl) (Or.inl rfl)
  have ha1 : addOffset 1000 3600 = 3601000 := by
    unfold addOffset
    rw [show ((1000 : ℕ) : ℚ) + 3600 * 1000 = ((3601000 : ℕ) : ℚ) by
      push_cast; norm_num]
    rw [Int.floor_natCast]
    exact Int.toNat_natCast _
  have ha2 : addOffset 5000 3600 = 3605000 := by
    unfold addOffset
    rw [show ((5000 : ℕ) : ℚ) + 3600 * 1000 = ((3605000 : ℕ) : ℚ) by
      push_cast; norm_num]
    rw [Int.floor_natCast]
    exact Int.toNat_natCast _
  constructor
  · rw [← hline, h.1, ha1, ha2]
    decide
  · rw [← hline, h.2]
